import Mathlib

/-!
Shallow embedding of the blackjack engine (`blackjack.py`): cards, the deck,
the mutable `Hand` with its cached total and bust flag, the dealer's automatic
turn, and the settlement function `determine_winner`, together with proofs of
the specification's claims about them.
-/

namespace Blackjack

/-- The four suits used by `Deck.__init__`. -/
inductive Suit where
  | spade | heart | diamond | club
deriving DecidableEq, Repr

/-- The thirteen ranks used by `Deck.__init__` (the source stores them as the
strings "2".."10","J","Q","K","A"). -/
inductive Rank where
  | r2 | r3 | r4 | r5 | r6 | r7 | r8 | r9 | r10
  | jack | queen | king | ace
deriving DecidableEq, Repr

/-- `rank.isdigit()` in `Hand.calculate`: true exactly for the numeral ranks. -/
def Rank.isdigit : Rank → Bool
  | .jack | .queen | .king | .ace => false
  | _ => true

/-- `int(rank)` for a numeral rank (only consulted when `isdigit` is true). -/
def Rank.digitVal : Rank → ℕ
  | .r2 => 2 | .r3 => 3 | .r4 => 4 | .r5 => 5 | .r6 => 6
  | .r7 => 7 | .r8 => 8 | .r9 => 9 | .r10 => 10
  | _ => 0

/-- A playing card: an immutable suit/rank pair (`Card.__init__`). -/
structure Card where
  suit : Suit
  rank : Rank
deriving DecidableEq, Repr

/-- The suit list of `Deck.__init__`. -/
def suitList : List Suit := [.spade, .heart, .diamond, .club]

/-- The rank list of `Deck.__init__`. -/
def rankList : List Rank :=
  [.r2, .r3, .r4, .r5, .r6, .r7, .r8, .r9, .r10, .jack, .queen, .king, .ace]

/-- The 52 cards built by the nested loops of `Deck.__init__`, in construction
order (the subsequent `random.shuffle` produces an arbitrary permutation of
this list, so shoe facts are stated for every permutation of it). -/
def freshDeck : List Card :=
  suitList.flatMap fun s => rankList.map fun r => ⟨s, r⟩

/-- `Deck.deal`: `self.deck.pop()` removes and returns the last element;
popping an empty list fails (in Python it raises, modelled here as `none`). -/
def Deck.deal (l : List Card) : Option (Card × List Card) :=
  match l.getLast? with
  | none => none
  | some c => some (c, l.dropLast)

/-- `n` consecutive `deal` calls: the list of drawn cards in draw order and
the remaining shoe, or `none` if some draw hit an empty shoe. -/
def Deck.dealN : ℕ → List Card → Option (List Card × List Card)
  | 0, l => some ([], l)
  | n + 1, l =>
    match Deck.deal l with
    | none => none
    | some (c, rest) => (Deck.dealN n rest).map fun p => (c :: p.1, p.2)

/-- One iteration step of the `for` loop of `Hand.calculate`: the accumulator
is the pair (running total, ace counter). -/
def cardStep (p : ℕ × ℕ) (c : Card) : ℕ × ℕ :=
  if c.rank.isdigit then (p.1 + c.rank.digitVal, p.2)
  else if c.rank = .king ∨ c.rank = .queen ∨ c.rank = .jack then (p.1 + 10, p.2)
  else (p.1 + 11, p.2 + 1)

/-- The `while total>21 and aces>0: total-=10; aces-=1` loop of
`Hand.calculate`. -/
def reduceAces : ℕ → ℕ → ℕ
  | t, 0 => t
  | t, a + 1 => if 21 < t then reduceAces (t - 10) a else t

/-- `Hand.calculate` as a pure function of the card list: scan all cards
accumulating total and ace count, then run the soft-ace reduction loop. -/
def calcTotal (cs : List Card) : ℕ :=
  let p := cs.foldl cardStep (0, 0)
  reduceAces p.1 p.2

/-- The `Hand` object state: the card list plus the cached fields `total`
and `trigger` maintained by `add_card` (`trigger = False` means busted). -/
structure Hand where
  cards : List Card
  total : ℕ
  trigger : Bool
deriving DecidableEq, Repr

/-- `Hand.__init__`: empty cards, total 0, trigger True. -/
def Hand.init : Hand := ⟨[], 0, true⟩

/-- `Hand.add_card`: append the card, recompute the total, and call `bust()`
(which sets `trigger = False`) when the new total exceeds 21. -/
def Hand.add_card (h : Hand) (c : Card) : Hand :=
  let cards := h.cards ++ [c]
  let total := calcTotal cards
  ⟨cards, total, if 21 < total then false else h.trigger⟩

/-- `Hand.calculate` as a state operation: recompute the cached total from
the current cards (it does not touch `trigger`). -/
def Hand.calculate (h : Hand) : Hand :=
  { h with total := calcTotal h.cards }

/-- The hand reached from a fresh `Hand()` by adding the given cards in
order through `add_card`. -/
def Hand.ofList (cs : List Card) : Hand :=
  cs.foldl Hand.add_card Hand.init

/-- The blackjack test computed at settlement in `determine_winner`:
exactly two cards and a (cached) total of 21. -/
def isBlackjack (h : Hand) : Prop :=
  h.cards.length = 2 ∧ h.total = 21

instance (h : Hand) : Decidable (isBlackjack h) := by
  unfold isBlackjack; infer_instance

/-! ### Exact model of Python's `int(bet_amount * 1.5)`

`bet_amount` is an `int`; Python converts it to an IEEE-754 double
(round to nearest, ties to even), multiplies by the exactly representable
`1.5`, rounds the product to a double again, and `int` truncates toward
zero. All values involved are nonnegative, so truncation is floor. -/

/-- Bit length with explicit fuel (`fuel ≥ n` suffices, see
`bitLenF_le_iff`). -/
def bitLenF : ℕ → ℕ → ℕ
  | 0, _ => 0
  | fuel + 1, n => if n = 0 then 0 else bitLenF fuel (n / 2) + 1

/-- Number of bits of `n` (0 for 0). -/
def bitLen (n : ℕ) : ℕ := bitLenF n n

/-- Round `n` to at most 53 significant bits, ties to even: the value of the
nearest IEEE double to the natural number `n`. -/
def roundSig53 (n : ℕ) : ℕ :=
  if bitLen n ≤ 53 then n
  else
    let e := bitLen n - 53
    let q := n / 2 ^ e
    let r := n % 2 ^ e
    let half := 2 ^ (e - 1)
    let q' := if half < r ∨ (r = half ∧ q % 2 = 1) then q + 1 else q
    q' * 2 ^ e

/-- Exact value of Python's `int(B * 1.5)` for a nonnegative int `B`:
round `B` to a double, multiply by 3/2 (tracked in half-units), round the
product to a double, truncate. -/
def pyInt1_5 (B : ℕ) : ℕ :=
  roundSig53 (3 * roundSig53 B) / 2

/-- `determine_winner`: the settlement function, returning the signed
winnings for the given bet. Mirrors the source's check order: double
blackjack, player blackjack (3:2 via `int(bet*1.5)`), dealer blackjack,
player bust (`trigger` false), dealer bust, then total comparison. -/
def determine_winner (player dealer : Hand) (bet : ℕ) : ℤ :=
  if isBlackjack player ∧ isBlackjack dealer then 0
  else if isBlackjack player then (pyInt1_5 bet : ℤ)
  else if isBlackjack dealer then -(bet : ℤ)
  else if player.trigger = false then -(bet : ℤ)
  else if dealer.trigger = false then (bet : ℤ)
  else if dealer.total < player.total then (bet : ℤ)
  else if player.total < dealer.total then -(bet : ℤ)
  else 0

/-- `dealer_turn`: hit while `total < 17 and trigger`, with the source's
early return after a bust; returns the value of the `return
dealer_hand.total` statement together with the final hand and shoe, or
`none` when a draw hit an empty shoe. -/
def dealer_turn (h : Hand) (d : List Card) : Option (ℕ × Hand × List Card) :=
  if h.total < 17 ∧ h.trigger = true then
    match hdl : Deck.deal d with
    | none => none
    | some (c, rest) =>
      let h' := h.add_card c
      if h'.trigger = false then some (h'.total, h', rest)
      else dealer_turn h' rest
  else some (h.total, h, d)
termination_by d.length
decreasing_by
  unfold Deck.deal at hdl
  rcases hl : d.getLast? with _ | c0
  · rw [hl] at hdl; exact absurd hdl (by simp)
  · rw [hl] at hdl
    simp only [Option.some.injEq, Prod.mk.injEq] at hdl
    obtain ⟨-, rfl⟩ := hdl
    have hne : d ≠ [] := by intro he; rw [he] at hl; simp at hl
    have := List.length_pos.mpr hne
    simp only [List.length_dropLast]
    omega

/-- The minimal value of a card: face value for numerals, 10 for J/Q/K,
1 for an ace counted low. -/
def minVal (c : Card) : ℕ :=
  if c.rank.isdigit then c.rank.digitVal
  else if c.rank = .ace then 1 else 10

/-- The minimal achievable total of a hand: every ace counted as 1. -/
def minSum (cs : List Card) : ℕ := (cs.map minVal).sum

/-- The number of aces in a hand. -/
def aceCount (cs : List Card) : ℕ := (cs.map Card.rank).count Rank.ace

/-- Closed form of the greedy reduction on a raw total `m + 10a` with `a`
aces: keep as many aces high as fits under 21, or none if even `m`
overshoots. -/
def greedyClosed (m a : ℕ) : ℕ :=
  if m ≤ 21 then m + 10 * min a ((21 - m) / 10) else m

/-- The representation invariant maintained by `add_card`: the cached total
is the recomputed total, and `trigger` is false exactly for a bust. -/
def HandInv (h : Hand) : Prop :=
  h.total = calcTotal h.cards ∧ (h.trigger = false ↔ 21 < h.total)

/-- Total of the hand under an explicit high/low choice for each ace; the
boolean list is consumed one entry per ace. -/
def assignedSum : List Card → List Bool → ℕ
  | [], _ => 0
  | c :: cs, bs =>
    if c.rank = .ace then
      (if bs.headD true then 11 else 1) + assignedSum cs bs.tail
    else minVal c + assignedSum cs bs

/-- The payout rule table of the specification, stated on the raw card
lists: blackjack pushes, player blackjack at `floor(B * 3/2)`, dealer
blackjack, player bust (total over 21), dealer bust, then comparison. -/
def specSettle (ps ds : List Card) (B : ℕ) : ℤ :=
  if (ps.length = 2 ∧ calcTotal ps = 21) ∧ (ds.length = 2 ∧ calcTotal ds = 21) then 0
  else if ps.length = 2 ∧ calcTotal ps = 21 then ((3 * B / 2 : ℕ) : ℤ)
  else if ds.length = 2 ∧ calcTotal ds = 21 then -(B : ℤ)
  else if 21 < calcTotal ps then -(B : ℤ)
  else if 21 < calcTotal ds then (B : ℤ)
  else if calcTotal ds < calcTotal ps then (B : ℤ)
  else if calcTotal ps < calcTotal ds then -(B : ℤ)
  else 0

/-! ### Analysis of the scoring algorithm -/

/-- A successful `deal` decomposes the shoe as `rest ++ [c]`; in particular
the remaining count strictly decreases. -/
theorem Deck.deal_some {l rest : List Card} {c : Card}
    (h : Deck.deal l = some (c, rest)) :
    l = rest ++ [c] ∧ rest.length < l.length := by
  unfold Deck.deal at h
  rcases hl : l.getLast? with _ | c₀
  · rw [hl] at h; exact absurd h (by simp)
  · rw [hl] at h
    simp only [Option.some.injEq, Prod.mk.injEq] at h
    obtain ⟨rfl, rfl⟩ := h
    have hne : l ≠ [] := by intro he; rw [he] at hl; simp at hl
    have hlast : l.getLast hne = c₀ := by
      rw [List.getLast?_eq_getLast l hne] at hl
      exact Option.some_inj.mp hl
    constructor
    · conv_lhs => rw [← List.dropLast_append_getLast hne]
      rw [hlast]
    · have := List.length_pos.mpr hne
      simp only [List.length_dropLast]
      omega


theorem cardStep_eq (p : ℕ × ℕ) (c : Card) :
    cardStep p c = (p.1 + minVal c + 10 * (if c.rank = .ace then 1 else 0),
      p.2 + (if c.rank = .ace then 1 else 0)) := by
  rcases c with ⟨s, r⟩
  cases r <;> simp [cardStep, minVal, Rank.isdigit, Rank.digitVal]

theorem foldl_cardStep (cs : List Card) :
    ∀ t a : ℕ, cs.foldl cardStep (t, a) =
      (t + minSum cs + 10 * aceCount cs, a + aceCount cs) := by
  induction cs with
  | nil => intro t a; simp [minSum, aceCount]
  | cons c cs ih =>
    intro t a
    rw [List.foldl_cons, cardStep_eq, ih]
    have hm : minSum (c :: cs) = minVal c + minSum cs := by
      simp [minSum]
    have ha : aceCount (c :: cs) =
        (if c.rank = .ace then 1 else 0) + aceCount cs := by
      simp only [aceCount, List.map_cons, List.count_cons]
      split <;> simp_all <;> omega
    rw [hm, ha]
    refine Prod.ext ?_ ?_ <;> simp <;> split <;> ring

theorem reduceAces_closed : ∀ (a m : ℕ), reduceAces (m + 10 * a) a = greedyClosed m a := by
  intro a
  induction a with
  | zero =>
    intro m
    simp only [reduceAces, greedyClosed, mul_zero, add_zero]
    split <;> omega
  | succ a ih =>
    intro m
    have hstep : m + 10 * (a + 1) - 10 = m + 10 * a := by omega
    by_cases hgt : 21 < m + 10 * (a + 1)
    · rw [show reduceAces (m + 10 * (a + 1)) (a + 1) =
          reduceAces (m + 10 * (a + 1) - 10) a by simp [reduceAces, hgt],
        hstep, ih]
      unfold greedyClosed
      split
      · have : (21 - m) / 10 ≤ a := by omega
        omega
      · rfl
    · rw [show reduceAces (m + 10 * (a + 1)) (a + 1) = m + 10 * (a + 1) by
        simp [reduceAces]; omega]
      unfold greedyClosed
      have hm : m ≤ 21 := by omega
      have : a + 1 ≤ (21 - m) / 10 := by omega
      simp only [if_pos hm]
      omega

/-- `calcTotal` in closed form. -/
theorem calcTotal_closed (cs : List Card) :
    calcTotal cs = greedyClosed (minSum cs) (aceCount cs) := by
  unfold calcTotal
  rw [show ((0, 0) : ℕ × ℕ) = ((0 : ℕ), (0 : ℕ)) from rfl, foldl_cardStep]
  simpa using reduceAces_closed (aceCount cs) (minSum cs)

/-- The computed total exceeds 21 exactly when even the all-aces-low total
does. -/
theorem calcTotal_gt21_iff (cs : List Card) :
    21 < calcTotal cs ↔ 21 < minSum cs := by
  rw [calcTotal_closed]
  unfold greedyClosed
  split
  · have : 10 * min (aceCount cs) ((21 - minSum cs) / 10) ≤ 21 - minSum cs := by
      have : min (aceCount cs) ((21 - minSum cs) / 10) ≤ (21 - minSum cs) / 10 :=
        min_le_right _ _
      omega
    omega
  · omega

/-- When busted, the computed total is the minimal achievable one. -/
theorem calcTotal_of_gt21 (cs : List Card) (h : 21 < minSum cs) :
    calcTotal cs = minSum cs := by
  rw [calcTotal_closed]
  unfold greedyClosed
  simp [Nat.not_le.mpr h]

theorem minSum_append (cs : List Card) (c : Card) :
    minSum (cs ++ [c]) = minSum cs + minVal c := by
  simp [minSum]

/-! ### The cached-field invariant of `Hand` -/

theorem handInv_init : HandInv Hand.init := by
  constructor
  · rfl
  · simp [Hand.init, calcTotal, reduceAces]

theorem add_card_cards (h : Hand) (c : Card) :
    (h.add_card c).cards = h.cards ++ [c] := rfl

theorem add_card_total (h : Hand) (c : Card) :
    (h.add_card c).total = calcTotal (h.cards ++ [c]) := rfl

theorem add_card_trigger (h : Hand) (c : Card) :
    (h.add_card c).trigger =
      if 21 < calcTotal (h.cards ++ [c]) then false else h.trigger := rfl

theorem handInv_add_card {h : Hand} (hi : HandInv h) (c : Card) :
    HandInv (h.add_card c) := by
  obtain ⟨ht, htr⟩ := hi
  refine ⟨by rw [add_card_total, add_card_cards], ?_⟩
  rw [add_card_trigger, add_card_total]
  by_cases hgt : 21 < calcTotal (h.cards ++ [c])
  · simp [hgt]
  · simp only [if_neg hgt]
    constructor
    · intro hfalse
      have h1 : 21 < calcTotal h.cards := ht ▸ htr.mp hfalse
      have h2 : 21 < minSum h.cards := (calcTotal_gt21_iff _).mp h1
      have h3 : 21 < minSum (h.cards ++ [c]) := by
        rw [minSum_append]; omega
      exact absurd ((calcTotal_gt21_iff _).mpr h3) hgt
    · intro hc; exact absurd hc hgt

theorem handInv_ofList (cs : List Card) : HandInv (Hand.ofList cs) := by
  unfold Hand.ofList
  induction cs using List.reverseRecOn with
  | nil => exact handInv_init
  | append_singleton cs c ih =>
    rw [List.foldl_append]
    exact handInv_add_card ih c

theorem ofList_cards (cs : List Card) : (Hand.ofList cs).cards = cs := by
  unfold Hand.ofList
  induction cs using List.reverseRecOn with
  | nil => rfl
  | append_singleton cs c ih =>
    rw [List.foldl_append]
    simp only [List.foldl_cons, List.foldl_nil, Hand.add_card]
    rw [ih]

theorem ofList_total (cs : List Card) :
    (Hand.ofList cs).total = calcTotal cs := by
  have := (handInv_ofList cs).1
  rwa [ofList_cards] at this

theorem ofList_trigger (cs : List Card) :
    (Hand.ofList cs).trigger = false ↔ 21 < calcTotal cs := by
  have := (handInv_ofList cs).2
  rwa [ofList_total] at this

theorem ofList_append (cs : List Card) (c : Card) :
    Hand.ofList (cs ++ [c]) = (Hand.ofList cs).add_card c := by
  unfold Hand.ofList
  rw [List.foldl_append]
  rfl

/-! ### Facts about the float model of `int(B * 1.5)` -/

theorem bitLenF_le_iff :
    ∀ (fuel n k : ℕ), n ≤ fuel → (bitLenF fuel n ≤ k ↔ n < 2 ^ k) := by
  intro fuel
  induction fuel with
  | zero =>
    intro n k hn
    interval_cases n
    simp [bitLenF, Nat.pos_pow_of_pos]
  | succ fuel ih =>
    intro n k hn
    by_cases h0 : n = 0
    · subst h0; simp [bitLenF, Nat.pos_pow_of_pos]
    · rw [show bitLenF (fuel + 1) n = bitLenF fuel (n / 2) + 1 by
        simp [bitLenF, h0]]
      cases k with
      | zero =>
        simp only [Nat.pow_zero]
        omega
      | succ k =>
        have hdiv : n / 2 ≤ fuel := by omega
        rw [Nat.add_le_add_iff_right, ih (n / 2) k hdiv, pow_succ]
        omega

theorem bitLen_le_iff (n k : ℕ) : bitLen n ≤ k ↔ n < 2 ^ k :=
  bitLenF_le_iff n n k le_rfl

theorem roundSig53_eq_self {n : ℕ} (h : n < 2 ^ 53) : roundSig53 n = n := by
  unfold roundSig53
  rw [if_pos ((bitLen_le_iff n 53).mpr h)]

/-- For bets small enough that `3 * B` fits in 53 bits, the Python
expression `int(B * 1.5)` is exactly `⌊3B/2⌋`. -/
theorem pyInt1_5_eq_floor {B : ℕ} (h : 3 * B < 2 ^ 53) :
    pyInt1_5 B = 3 * B / 2 := by
  have hB : B < 2 ^ 53 := by omega
  unfold pyInt1_5
  rw [roundSig53_eq_self hB, roundSig53_eq_self h]

/-! ### Shoe depletion -/

theorem Deck.deal_nil : Deck.deal [] = none := rfl

theorem Deck.deal_of_ne_nil {l : List Card} (h : l ≠ []) :
    Deck.deal l = some (l.getLast h, l.dropLast) := by
  unfold Deck.deal
  rw [List.getLast?_eq_getLast l h]

/-- Dealing out a whole shoe succeeds and yields its reversal. -/
theorem dealN_length : ∀ l : List Card, Deck.dealN l.length l = some (l.reverse, []) := by
  intro l
  induction l using List.reverseRecOn with
  | nil => rfl
  | append_singleton cs c ih =>
    have hne : cs ++ [c] ≠ [] := by simp
    have hdeal : Deck.deal (cs ++ [c]) = some (c, cs) := by
      rw [Deck.deal_of_ne_nil hne]
      simp
    rw [show (cs ++ [c]).length = cs.length + 1 by simp]
    unfold Deck.dealN
    rw [hdeal]
    simp [ih]

/-- Asking for more cards than the shoe holds fails. -/
theorem dealN_none : ∀ (n : ℕ) (l : List Card), l.length < n → Deck.dealN n l = none := by
  intro n
  induction n with
  | zero => intro l h; omega
  | succ n ih =>
    intro l h
    rcases eq_or_ne l [] with rfl | hne
    · unfold Deck.dealN
      rw [Deck.deal_nil]
    · unfold Deck.dealN
      rw [Deck.deal_of_ne_nil hne]
      have hlen : l.dropLast.length < n := by
        have := List.length_pos.mpr hne
        simp only [List.length_dropLast]
        omega
      simp [ih _ hlen]

/-! ### Ace assignments (for the optimality of the greedy reduction)

An assignment chooses, for each ace of the hand in order, whether it counts
as 11 (`true`) or 1 (`false`); every other card contributes its fixed
value. -/

theorem aceCount_cons (c : Card) (cs : List Card) :
    aceCount (c :: cs) = (if c.rank = .ace then 1 else 0) + aceCount cs := by
  simp only [aceCount, List.map_cons, List.count_cons]
  split <;> simp_all <;> omega

theorem minSum_cons (c : Card) (cs : List Card) :
    minSum (c :: cs) = minVal c + minSum cs := by
  simp [minSum]

/-- Any assignment total is the all-low total plus 10 per ace counted
high. -/
theorem assignedSum_eq : ∀ (cs : List Card) (bs : List Bool),
    bs.length = aceCount cs →
    assignedSum cs bs = minSum cs + 10 * bs.count true := by
  intro cs
  induction cs with
  | nil =>
    intro bs hb
    simp only [aceCount, List.map_nil, List.count_nil] at hb
    rw [List.length_eq_zero] at hb
    subst hb
    simp [assignedSum, minSum]
  | cons c cs ih =>
    intro bs hb
    rw [aceCount_cons] at hb
    by_cases hace : c.rank = .ace
    · rw [if_pos hace] at hb
      rcases bs with _ | ⟨b, bs⟩
      · simp at hb; omega
      · have hb' : bs.length = aceCount cs := by
          simp only [List.length_cons] at hb; omega
        simp only [assignedSum, if_pos hace, List.headD_cons, List.tail_cons,
          ih bs hb', minSum_cons, List.count_cons]
        have : minVal c = 1 := by simp [minVal, hace, Rank.isdigit]
        rw [this]
        cases b <;> simp <;> omega
    · rw [if_neg hace] at hb
      simp only [assignedSum, if_neg hace, minSum_cons,
        ih bs (by omega)]
      omega

/-- Every count `k ≤ aceCount` is realised by some assignment. -/
theorem exists_assignment (cs : List Card) (k : ℕ) (hk : k ≤ aceCount cs) :
    ∃ bs : List Bool, bs.length = aceCount cs ∧ bs.count true = k := by
  refine ⟨List.replicate k true ++ List.replicate (aceCount cs - k) false, ?_, ?_⟩
  · simp; omega
  · simp [List.count_append, List.count_replicate]

/-! ### Behaviour of the dealer loop -/

/-- When the loop guard fails (total already 17 or more, or busted), the
dealer draws nothing: hand and shoe are returned unchanged. -/
theorem dealer_turn_no_draw {h : Hand} (d : List Card)
    (hg : ¬(h.total < 17 ∧ h.trigger = true)) :
    dealer_turn h d = some (h.total, h, d) := by
  rw [dealer_turn]
  simp [hg]

/-- On success the returned number is the final hand's total, and the loop
has stopped: final total at least 17, or the dealer busted. -/
theorem dealer_turn_post (d : List Card) (h : Hand) (v : ℕ) (h' : Hand)
    (d' : List Card) (hrun : dealer_turn h d = some (v, h', d')) :
    v = h'.total ∧ (17 ≤ h'.total ∨ h'.trigger = false) := by
  suffices main : ∀ (n : ℕ) (d : List Card) (h : Hand) (v : ℕ) (h' : Hand)
      (d' : List Card), d.length ≤ n → dealer_turn h d = some (v, h', d') →
      v = h'.total ∧ (17 ≤ h'.total ∨ h'.trigger = false) by
    exact main d.length d h v h' d' le_rfl hrun
  intro n
  induction n with
  | zero =>
    intro d h v h' d' hlen hrun
    have hnil : d = [] := List.eq_nil_of_length_eq_zero (by omega)
    subst hnil
    by_cases hg : h.total < 17 ∧ h.trigger = true
    · rw [dealer_turn, if_pos hg] at hrun
      exact absurd hrun (by simp [Deck.deal_nil])
    · rw [dealer_turn_no_draw _ hg] at hrun
      have : v = h.total ∧ h' = h := by
        simp only [Option.some.injEq, Prod.mk.injEq] at hrun
        tauto
      obtain ⟨rfl, rfl⟩ := this
      refine ⟨rfl, ?_⟩
      rcases hbt : h'.trigger with _ | _
      · exact Or.inr rfl
      · exact Or.inl (by by_contra hlt; exact hg ⟨by omega, hbt⟩)
  | succ n ih =>
    intro d h v h' d' hlen hrun
    by_cases hg : h.total < 17 ∧ h.trigger = true
    · rw [dealer_turn, if_pos hg] at hrun
      rcases hd : Deck.deal d with _ | ⟨c, rest⟩
      · rw [hd] at hrun; exact absurd hrun (by simp)
      · rw [hd] at hrun
        obtain ⟨hdec, hln⟩ := Deck.deal_some hd
        by_cases hb : (h.add_card c).trigger = false
        · simp only [hb, if_pos] at hrun
          have : v = (h.add_card c).total ∧ h' = h.add_card c := by
            simp only [Option.some.injEq, Prod.mk.injEq] at hrun
            tauto
          obtain ⟨rfl, rfl⟩ := this
          exact ⟨rfl, Or.inr hb⟩
        · simp only [hb, if_neg] at hrun
          exact ih rest (h.add_card c) v h' d' (by omega) hrun
    · rw [dealer_turn_no_draw _ hg] at hrun
      have : v = h.total ∧ h' = h := by
        simp only [Option.some.injEq, Prod.mk.injEq] at hrun
        tauto
      obtain ⟨rfl, rfl⟩ := this
      refine ⟨rfl, ?_⟩
      rcases hbt : h'.trigger with _ | _
      · exact Or.inr rfl
      · exact Or.inl (by by_contra hlt; exact hg ⟨by omega, hbt⟩)

/-- Card conservation through the dealer loop: every draw moves exactly one
card from the shoe to the hand, so the number of draws is the (finite) drop
in shoe size. -/
theorem dealer_turn_conserve (d : List Card) (h : Hand) (v : ℕ) (h' : Hand)
    (d' : List Card) (hrun : dealer_turn h d = some (v, h', d')) :
    h'.cards.length + d'.length = h.cards.length + d.length ∧
      d'.length ≤ d.length := by
  suffices main : ∀ (n : ℕ) (d : List Card) (h : Hand) (v : ℕ) (h' : Hand)
      (d' : List Card), d.length ≤ n → dealer_turn h d = some (v, h', d') →
      h'.cards.length + d'.length = h.cards.length + d.length ∧
        d'.length ≤ d.length by
    exact main d.length d h v h' d' le_rfl hrun
  intro n
  induction n with
  | zero =>
    intro d h v h' d' hlen hrun
    have hnil : d = [] := List.eq_nil_of_length_eq_zero (by omega)
    subst hnil
    by_cases hg : h.total < 17 ∧ h.trigger = true
    · rw [dealer_turn, if_pos hg] at hrun
      exact absurd hrun (by simp [Deck.deal_nil])
    · rw [dealer_turn_no_draw _ hg] at hrun
      have : h' = h ∧ d' = [] := by
        simp only [Option.some.injEq, Prod.mk.injEq] at hrun
        tauto
      obtain ⟨rfl, rfl⟩ := this
      simp
  | succ n ih =>
    intro d h v h' d' hlen hrun
    by_cases hg : h.total < 17 ∧ h.trigger = true
    · rw [dealer_turn, if_pos hg] at hrun
      rcases hd : Deck.deal d with _ | ⟨c, rest⟩
      · rw [hd] at hrun; exact absurd hrun (by simp)
      · rw [hd] at hrun
        obtain ⟨hdec, hln⟩ := Deck.deal_some hd
        have hdl : d.length = rest.length + 1 := by rw [hdec]; simp
        have hcl : (h.add_card c).cards.length = h.cards.length + 1 := by
          rw [add_card_cards]; simp
        by_cases hb : (h.add_card c).trigger = false
        · simp only [hb, if_pos] at hrun
          have : h' = h.add_card c ∧ d' = rest := by
            simp only [Option.some.injEq, Prod.mk.injEq] at hrun
            tauto
          obtain ⟨rfl, rfl⟩ := this
          omega
        · simp only [hb, if_neg] at hrun
          have := ih rest (h.add_card c) v h' d' (by omega) hrun
          omega
    · rw [dealer_turn_no_draw _ hg] at hrun
      have : h' = h ∧ d' = d := by
        simp only [Option.some.injEq, Prod.mk.injEq] at hrun
        tauto
      obtain ⟨rfl, rfl⟩ := this
      simp

/-- When the guard holds and the shoe is nonempty, the dealer really does
draw: the final hand holds strictly more cards. -/
theorem dealer_turn_draws (h : Hand) (d : List Card)
    (hg : h.total < 17 ∧ h.trigger = true) (hne : d ≠ [])
    (v : ℕ) (h' : Hand) (d' : List Card)
    (hrun : dealer_turn h d = some (v, h', d')) :
    h.cards.length < h'.cards.length := by
  rw [dealer_turn, if_pos hg, Deck.deal_of_ne_nil hne] at hrun
  set c := d.getLast hne with hc
  have hcl : (h.add_card c).cards.length = h.cards.length + 1 := by
    rw [add_card_cards]; simp
  by_cases hb : (h.add_card c).trigger = false
  · simp only [hb, if_pos] at hrun
    have : h' = h.add_card c := by
      simp only [Option.some.injEq, Prod.mk.injEq] at hrun
      tauto
    subst this
    omega
  · simp only [hb, if_neg] at hrun
    have := dealer_turn_conserve _ _ _ _ _ hrun
    have hdl : d.dropLast.length + 1 = d.length := by
      have := List.length_pos.mpr hne
      simp only [List.length_dropLast]
      omega
    omega

/-! ### The claims -/

/-- Claim C1: for every sequence of cards appended via `add_card`, the hand's
cached total equals the soft-ace-reduced sum computed by `calculate`
(numerals at face value, J/Q/K at 10, aces at 11 reduced by 10 each while the
total exceeds 21), and recomputing with no further cards added leaves the
total unchanged (idempotence). -/
theorem hand_total_correct (cs : List Card) :
    (Hand.ofList cs).total = calcTotal cs ∧
      ((Hand.ofList cs).calculate).total = (Hand.ofList cs).total := by
  refine ⟨ofList_total cs, ?_⟩
  show calcTotal (Hand.ofList cs).cards = _
  rw [ofList_cards, ofList_total]

/-- Claim C3: after any sequence of `add_card` calls, the busted flag (the
negation of `trigger`) holds exactly when the total exceeds 21, and once the
hand is busted every further `add_card` leaves it busted. -/
theorem bust_flag_iff_total_gt21 (cs : List Card) :
    ((Hand.ofList cs).trigger = false ↔ 21 < (Hand.ofList cs).total) ∧
      ∀ c : Card, (Hand.ofList cs).trigger = false →
        ((Hand.ofList cs).add_card c).trigger = false := by
  refine ⟨(handInv_ofList cs).2, ?_⟩
  intro c hf
  rw [add_card_trigger]
  split
  · rfl
  · exact hf

/-- Claim C3 witness: a busted three-card hand stays busted after another
card. -/
theorem bust_flag_iff_total_gt21_witness :
    (Hand.ofList [⟨.spade, .king⟩, ⟨.spade, .queen⟩, ⟨.heart, .king⟩]).trigger
        = false ∧
      ((Hand.ofList [⟨.spade, .king⟩, ⟨.spade, .queen⟩, ⟨.heart, .king⟩]).add_card
          ⟨.club, .r2⟩).trigger = false :=
  ⟨by decide,
    (bust_flag_iff_total_gt21
      [⟨.spade, .king⟩, ⟨.spade, .queen⟩, ⟨.heart, .king⟩]).2 ⟨.club, .r2⟩
      (by decide)⟩

/-- Claim C4: every freshly built (arbitrarily shuffled) shoe has exactly 52
cards with no duplicate suit/rank pair; each successful deal removes and
returns the last card, strictly shrinking the shoe; dealing the whole shoe
yields 52 pairwise distinct cards with nothing left; and the 53rd deal
fails. -/
theorem shoe_draws_distinct_and_53rd_fails (shoe : List Card)
    (hp : shoe.Perm freshDeck) :
    shoe.length = 52 ∧ shoe.Nodup ∧
      (∀ c rest, Deck.deal shoe = some (c, rest) →
        shoe = rest ++ [c] ∧ rest.length < shoe.length) ∧
      (∃ ds, Deck.dealN 52 shoe = some (ds, []) ∧ ds.Nodup) ∧
      Deck.dealN 53 shoe = none := by
  have hfresh : freshDeck.Nodup := by decide
  have hlen : shoe.length = 52 := by
    rw [hp.length_eq]
    rfl
  have hnd : shoe.Nodup := hp.nodup_iff.mpr hfresh
  refine ⟨hlen, hnd, fun c rest hc => Deck.deal_some hc, ?_, ?_⟩
  · refine ⟨shoe.reverse, ?_, List.nodup_reverse.mpr hnd⟩
    rw [← hlen]
    exact dealN_length shoe
  · exact dealN_none 53 shoe (by omega)

/-- Claim C4 witness: the unshuffled fresh deck itself. -/
theorem shoe_draws_distinct_witness :
    freshDeck.length = 52 ∧ Deck.dealN 53 freshDeck = none := by
  have h := shoe_draws_distinct_and_53rd_fails freshDeck (List.Perm.refl _)
  exact ⟨h.1, h.2.2.2.2⟩

/-- Claim C9: the scoring is permutation-invariant — two hands holding the
same cards in any order get the same recomputed total, the same cached
total, and the same busted flag. -/
theorem score_perm_invariant (cs cs' : List Card) (hp : cs.Perm cs') :
    calcTotal cs = calcTotal cs' ∧
      (Hand.ofList cs).total = (Hand.ofList cs').total ∧
      (Hand.ofList cs).trigger = (Hand.ofList cs').trigger := by
  have hm : minSum cs = minSum cs' := (hp.map minVal).sum_eq
  have ha : aceCount cs = aceCount cs' := (hp.map Card.rank).count_eq _
  have hc : calcTotal cs = calcTotal cs' := by
    rw [calcTotal_closed, calcTotal_closed, hm, ha]
  refine ⟨hc, by rw [ofList_total, ofList_total, hc], ?_⟩
  have h1 := ofList_trigger cs
  have h2 := ofList_trigger cs'
  rw [hc] at h1
  cases htr : (Hand.ofList cs).trigger
  · rw [htr] at h1
    exact (h2.mpr (h1.mp rfl)).symm
  · cases htr' : (Hand.ofList cs').trigger
    · rw [htr'] at h2
      rw [h1.mpr (h2.mp rfl)] at htr
      exact absurd htr (by simp)
    · rfl

/-- Claim C9 witness: ace-king and king-ace score identically. -/
theorem score_perm_invariant_witness :
    calcTotal [⟨.spade, .ace⟩, ⟨.spade, .king⟩] =
      calcTotal [⟨.spade, .king⟩, ⟨.spade, .ace⟩] :=
  (score_perm_invariant [⟨.spade, .ace⟩, ⟨.spade, .king⟩]
    [⟨.spade, .king⟩, ⟨.spade, .ace⟩] (by decide)).1

/-- Claim C5: the dealer draws exactly when the total is below 17 and the
hand is not busted — with the guard false the hand and shoe are returned
untouched, with the guard true and a nonempty shoe at least one card is
drawn — and on return the dealer's total is at least 17 or the dealer is
busted, the returned value being the final hand's total. -/
theorem dealer_stands_at_17 (h : Hand) (d : List Card) :
    (¬(h.total < 17 ∧ h.trigger = true) →
      dealer_turn h d = some (h.total, h, d)) ∧
    (h.total < 17 ∧ h.trigger = true → d ≠ [] →
      ∀ v h' d', dealer_turn h d = some (v, h', d') →
        h.cards.length < h'.cards.length) ∧
    (∀ v h' d', dealer_turn h d = some (v, h', d') →
      v = h'.total ∧ (17 ≤ h'.total ∨ h'.trigger = false)) :=
  ⟨fun hg => dealer_turn_no_draw d hg,
    fun hg hne v h' d' hr => dealer_turn_draws h d hg hne v h' d' hr,
    fun v h' d' hr => dealer_turn_post d h v h' d' hr⟩

/-- Claim C5 witness: a dealer already on 19 stands, drawing nothing. -/
theorem dealer_stands_at_17_witness :
    dealer_turn (Hand.ofList [⟨.heart, .r10⟩, ⟨.heart, .r9⟩]) [⟨.club, .king⟩] =
      some ((Hand.ofList [⟨.heart, .r10⟩, ⟨.heart, .r9⟩]).total,
        Hand.ofList [⟨.heart, .r10⟩, ⟨.heart, .r9⟩], [⟨.club, .king⟩]) :=
  (dealer_stands_at_17 (Hand.ofList [⟨.heart, .r10⟩, ⟨.heart, .r9⟩])
    [⟨.club, .king⟩]).1 (by decide)

/-- Claim C8: the dealer loop terminates after finitely many draws — it is a
total function, each draw moves exactly one card from the shoe to the hand,
the shoe never grows, and the number of draws is bounded by the shoe size. -/
theorem dealer_turn_finitely_many_draws (h : Hand) (d : List Card) :
    ∀ v h' d', dealer_turn h d = some (v, h', d') →
      h'.cards.length + d'.length = h.cards.length + d.length ∧
        d'.length ≤ d.length ∧
        h'.cards.length - h.cards.length ≤ d.length := by
  intro v h' d' hr
  have := dealer_turn_conserve d h v h' d' hr
  omega

/-- Claim C8 witness: a dealer on 16 draws a king, busts, and the single
draw is accounted for: one card moved from the shoe to the hand. -/
theorem dealer_turn_finitely_many_draws_witness :
    ((Hand.ofList [⟨.heart, .r10⟩, ⟨.heart, .r6⟩]).add_card
          ⟨.club, .king⟩).cards.length + ([] : List Card).length =
        (Hand.ofList [⟨.heart, .r10⟩, ⟨.heart, .r6⟩]).cards.length +
          [(⟨.club, .king⟩ : Card)].length ∧
      ([] : List Card).length ≤ [(⟨.club, .king⟩ : Card)].length ∧
      ((Hand.ofList [⟨.heart, .r10⟩, ⟨.heart, .r6⟩]).add_card
            ⟨.club, .king⟩).cards.length -
          (Hand.ofList [⟨.heart, .r10⟩, ⟨.heart, .r6⟩]).cards.length ≤
        [(⟨.club, .king⟩ : Card)].length := by
  have hrun : dealer_turn (Hand.ofList [⟨.heart, .r10⟩, ⟨.heart, .r6⟩])
      [⟨.club, .king⟩] =
      some (((Hand.ofList [⟨.heart, .r10⟩, ⟨.heart, .r6⟩]).add_card
          ⟨.club, .king⟩).total,
        (Hand.ofList [⟨.heart, .r10⟩, ⟨.heart, .r6⟩]).add_card ⟨.club, .king⟩,
        []) := by
    rw [dealer_turn]
    decide
  exact dealer_turn_finitely_many_draws _ _ _ _ _ hrun

/-- Claim C6: the settlement-time blackjack test holds exactly for a
two-card hand totalling 21, and a hand of three or more cards totalling 21
is settled by plain comparison (win or tie at 1:1), never at the 3:2
blackjack payout. -/
theorem blackjack_iff_two_card_21 (cs ds : List Card) (B : ℕ) :
    (isBlackjack (Hand.ofList cs) ↔ cs.length = 2 ∧ calcTotal cs = 21) ∧
      (3 ≤ cs.length → calcTotal cs = 21 →
        ¬isBlackjack (Hand.ofList ds) → (Hand.ofList ds).trigger = true →
        determine_winner (Hand.ofList cs) (Hand.ofList ds) B =
          if (Hand.ofList ds).total < 21 then (B : ℤ) else 0) := by
  constructor
  · unfold isBlackjack
    rw [ofList_cards, ofList_total]
  · intro h3 h21 hdbj hdtr
    have hpt : (Hand.ofList cs).total = 21 := by rw [ofList_total]; exact h21
    have hpbj : ¬isBlackjack (Hand.ofList cs) := by
      unfold isBlackjack
      rw [ofList_cards]
      rintro ⟨h2, -⟩
      omega
    have hptr : ¬((Hand.ofList cs).trigger = false) := by
      intro hf
      have := (ofList_trigger cs).mp hf
      omega
    have hdle : (Hand.ofList ds).total ≤ 21 := by
      rw [ofList_total]
      by_contra hgt
      rw [(ofList_trigger ds).mpr (by omega)] at hdtr
      exact absurd hdtr (by simp)
    unfold determine_winner
    rw [if_neg (by tauto), if_neg hpbj, if_neg hdbj, if_neg hptr,
      if_neg (by rw [hdtr]; simp), hpt]
    by_cases hlt : (Hand.ofList ds).total < 21
    · rw [if_pos hlt, if_pos hlt]
    · rw [if_neg hlt, if_neg hlt, if_neg (by omega)]

/-- Claim C6 witness: a three-card 21 against a dealer 19 pays 1:1, not
3:2. -/
theorem blackjack_iff_two_card_21_witness :
    determine_winner
        (Hand.ofList [⟨.spade, .r5⟩, ⟨.spade, .r6⟩, ⟨.spade, .r10⟩])
        (Hand.ofList [⟨.heart, .r10⟩, ⟨.heart, .r9⟩]) 7 =
      if (Hand.ofList [⟨.heart, .r10⟩, ⟨.heart, .r9⟩]).total < 21
      then (7 : ℤ) else 0 :=
  (blackjack_iff_two_card_21 [⟨.spade, .r5⟩, ⟨.spade, .r6⟩, ⟨.spade, .r10⟩]
    [⟨.heart, .r10⟩, ⟨.heart, .r9⟩] 7).2 (by decide) (by decide) (by decide)
    (by decide)

/-- Claim C7: the greedy ace reduction is optimal. The computed total is
realised by some 11-or-1 assignment to the aces; when some assignment stays
within 21 the computed total is the greatest such; and when every
assignment overshoots, the computed total is the least achievable one and
the hand is busted. -/
theorem greedy_reduction_optimal (cs : List Card) :
    (∃ bs : List Bool, bs.length = aceCount cs ∧
      assignedSum cs bs = calcTotal cs) ∧
    ((∃ bs : List Bool, bs.length = aceCount cs ∧ assignedSum cs bs ≤ 21) →
      calcTotal cs ≤ 21 ∧
        ∀ bs : List Bool, bs.length = aceCount cs → assignedSum cs bs ≤ 21 →
          assignedSum cs bs ≤ calcTotal cs) ∧
    ((∀ bs : List Bool, bs.length = aceCount cs → 21 < assignedSum cs bs) →
      21 < calcTotal cs ∧
        ∀ bs : List Bool, bs.length = aceCount cs →
          calcTotal cs ≤ assignedSum cs bs) := by
  have hclosed := calcTotal_closed cs
  refine ⟨?_, ?_, ?_⟩
  · by_cases hm : minSum cs ≤ 21
    · obtain ⟨bs, hlen, hcnt⟩ :=
        exists_assignment cs (min (aceCount cs) ((21 - minSum cs) / 10))
          (min_le_left _ _)
      refine ⟨bs, hlen, ?_⟩
      rw [assignedSum_eq cs bs hlen, hcnt, hclosed]
      unfold greedyClosed
      rw [if_pos hm]
    · obtain ⟨bs, hlen, hcnt⟩ := exists_assignment cs 0 (Nat.zero_le _)
      refine ⟨bs, hlen, ?_⟩
      rw [assignedSum_eq cs bs hlen, hcnt, hclosed]
      unfold greedyClosed
      rw [if_neg hm]
      omega
  · rintro ⟨bs, hlen, hle⟩
    rw [assignedSum_eq cs bs hlen] at hle
    have hm : minSum cs ≤ 21 := by omega
    have hval : calcTotal cs =
        minSum cs + 10 * min (aceCount cs) ((21 - minSum cs) / 10) := by
      rw [hclosed]; unfold greedyClosed; rw [if_pos hm]
    constructor
    · rw [hval]
      have := min_le_right (aceCount cs) ((21 - minSum cs) / 10)
      omega
    · intro bs₂ hlen₂ hle₂
      rw [assignedSum_eq cs bs₂ hlen₂] at hle₂ ⊢
      have hcnt : bs₂.count true ≤ aceCount cs := by
        rw [← hlen₂]; exact List.count_le_length _ _
      rw [hval]
      omega
  · intro hall
    obtain ⟨bs, hlen, hcnt⟩ := exists_assignment cs 0 (Nat.zero_le _)
    have h0 := hall bs hlen
    rw [assignedSum_eq cs bs hlen, hcnt] at h0
    have hm : ¬(minSum cs ≤ 21) := by omega
    have hval : calcTotal cs = minSum cs := by
      rw [hclosed]; unfold greedyClosed; rw [if_neg hm]
    constructor
    · omega
    · intro bs₂ hlen₂
      rw [assignedSum_eq cs bs₂ hlen₂, hval]
      omega

/-- Claim C7 witness: for A,A,9 the greedy total 21 is reached by the
assignment counting one ace high, and it dominates that assignment. -/
theorem greedy_reduction_optimal_witness :
    calcTotal [⟨.spade, .ace⟩, ⟨.heart, .ace⟩, ⟨.spade, .r9⟩] ≤ 21 ∧
      assignedSum [⟨.spade, .ace⟩, ⟨.heart, .ace⟩, ⟨.spade, .r9⟩]
          [true, false] ≤
        calcTotal [⟨.spade, .ace⟩, ⟨.heart, .ace⟩, ⟨.spade, .r9⟩] := by
  have h := (greedy_reduction_optimal
      [⟨.spade, .ace⟩, ⟨.heart, .ace⟩, ⟨.spade, .r9⟩]).2.1
    ⟨[true, false], by decide, by decide⟩
  exact ⟨h.1, h.2 [true, false] (by decide) (by decide)⟩

/-- Claim C2 counterexample: at bet 3002399751580333 with a lone player
blackjack, `determine_winner` (whose payout is Python's `int(bet * 1.5)`,
a float product) pays 4503599627370500, one more than the rule table's
`floor(B * 1.5) = 4503599627370499`. -/
theorem settlement_float_counterexample :
    determine_winner (Hand.ofList [⟨.spade, .ace⟩, ⟨.spade, .king⟩])
        (Hand.ofList [⟨.heart, .r9⟩, ⟨.heart, .r8⟩]) 3002399751580333 ≠
      specSettle [⟨.spade, .ace⟩, ⟨.spade, .king⟩]
        [⟨.heart, .r9⟩, ⟨.heart, .r8⟩] 3002399751580333 := by
  decide

/-- Claim C2 (amended): for every pair of hands built through `add_card`
and every positive bet with `3B < 2^53` (so the 3:2 float payout is exact),
settlement follows the ordered rule table: blackjack push, player blackjack
at `floor(3B/2)`, dealer blackjack, player bust before dealer bust, then
total comparison. -/
theorem settlement_matches_rule_table (ps ds : List Card) (B : ℕ)
    (hB : 0 < B) (hrange : 3 * B < 2 ^ 53) :
    determine_winner (Hand.ofList ps) (Hand.ofList ds) B =
      specSettle ps ds B := by
  have hptr := ofList_trigger ps
  have hdtr := ofList_trigger ds
  unfold determine_winner specSettle isBlackjack
  simp only [ofList_cards, ofList_total, pyInt1_5_eq_floor hrange]
  cases hpv : (Hand.ofList ps).trigger <;>
    cases hdv : (Hand.ofList ds).trigger
  · have hp : 21 < calcTotal ps := hptr.mp hpv
    have hd : 21 < calcTotal ds := hdtr.mp hdv
    rw [if_pos (show (false : Bool) = false from rfl)]
    split_ifs <;> omega
  · have hp : 21 < calcTotal ps := hptr.mp hpv
    have hd : ¬(21 < calcTotal ds) := by
      intro hgt
      rw [hdtr.mpr hgt] at hdv
      exact absurd hdv (by simp)
    rw [if_pos (show (false : Bool) = false from rfl)]
    split_ifs <;> omega
  · have hp : ¬(21 < calcTotal ps) := by
      intro hgt
      rw [hptr.mpr hgt] at hpv
      exact absurd hpv (by simp)
    have hd : 21 < calcTotal ds := hdtr.mp hdv
    rw [if_neg (show ¬((true : Bool) = false) by simp),
      if_pos (show (false : Bool) = false from rfl)]
    split_ifs <;> omega
  · have hp : ¬(21 < calcTotal ps) := by
      intro hgt
      rw [hptr.mpr hgt] at hpv
      exact absurd hpv (by simp)
    have hd : ¬(21 < calcTotal ds) := by
      intro hgt
      rw [hdtr.mpr hgt] at hdv
      exact absurd hdv (by simp)
    rw [if_neg (show ¬((true : Bool) = false) by simp),
      if_neg (show ¬((true : Bool) = false) by simp)]
    split_ifs <;> omega

/-- Claim C2 witness: the spec's own sample — player blackjack against a
dealer 17, bet 10, pays 15. -/
theorem settlement_matches_rule_table_witness :
    determine_winner (Hand.ofList [⟨.spade, .ace⟩, ⟨.spade, .king⟩])
        (Hand.ofList [⟨.heart, .r9⟩, ⟨.heart, .r8⟩]) 10 =
      specSettle [⟨.spade, .ace⟩, ⟨.spade, .king⟩]
        [⟨.heart, .r9⟩, ⟨.heart, .r8⟩] 10 :=
  settlement_matches_rule_table [⟨.spade, .ace⟩, ⟨.spade, .king⟩]
    [⟨.heart, .r9⟩, ⟨.heart, .r8⟩] 10 (by decide) (by decide)

/-- Claim C10 counterexample: at bet 3002399751580333 a lone player
blackjack is paid `int(B * 1.5) = 4503599627370500`, which is outside
`{-B, 0, B, floor(3B/2)}` — the float product rounds up past the floor. -/
theorem payout_range_counterexample :
    determine_winner (Hand.ofList [⟨.club, .ace⟩, ⟨.club, .king⟩])
        (Hand.ofList [⟨.diamond, .r9⟩, ⟨.diamond, .r8⟩]) 3002399751580333 ∉
      ([-(3002399751580333 : ℤ), 0, 3002399751580333,
        ((3 * 3002399751580333 / 2 : ℕ) : ℤ)] : List ℤ) := by
  decide

/-- Claim C10 (amended): for every pair of hands and every positive bet
with `3B < 2^53`, the payout is one of `-B`, `0`, `+B`, `floor(3B/2)`, its
magnitude is at most `floor(3B/2)`, and Python's `int(B * 1.5)` truncation
agrees with `floor(3B/2)` (for larger bets the float product can round away
from the floor, as the counterexample shows). -/
theorem payout_range (ps ds : List Card) (B : ℕ)
    (hB : 0 < B) (hrange : 3 * B < 2 ^ 53) :
    determine_winner (Hand.ofList ps) (Hand.ofList ds) B ∈
        ([-(B : ℤ), 0, (B : ℤ), ((3 * B / 2 : ℕ) : ℤ)] : List ℤ) ∧
      (determine_winner (Hand.ofList ps) (Hand.ofList ds) B).natAbs ≤
        3 * B / 2 ∧
      pyInt1_5 B = 3 * B / 2 := by
  have hf := pyInt1_5_eq_floor hrange
  refine ⟨?_, ?_, hf⟩ <;>
    · unfold determine_winner
      rw [hf]
      split_ifs <;> simp <;> omega

/-- Claim C10 witness: at bet 10 the payout of a blackjack deal is 15, in
range and matching the floor. -/
theorem payout_range_witness :
    determine_winner (Hand.ofList [⟨.club, .ace⟩, ⟨.club, .king⟩])
        (Hand.ofList [⟨.diamond, .r9⟩, ⟨.diamond, .r8⟩]) 10 ∈
        ([-(10 : ℤ), 0, (10 : ℤ), ((3 * 10 / 2 : ℕ) : ℤ)] : List ℤ) ∧
      (determine_winner (Hand.ofList [⟨.club, .ace⟩, ⟨.club, .king⟩])
          (Hand.ofList [⟨.diamond, .r9⟩, ⟨.diamond, .r8⟩]) 10).natAbs ≤
        3 * 10 / 2 ∧
      pyInt1_5 10 = 3 * 10 / 2 :=
  payout_range [⟨.club, .ace⟩, ⟨.club, .king⟩]
    [⟨.diamond, .r9⟩, ⟨.diamond, .r8⟩] 10 (by decide) (by decide)

end Blackjack
